import Mathlib

/-!
Verification development for the knowledge-base RAG repository.

The Python sources are shallowly embedded: strings become `List Char`
(written `Str` below), Python dicts with string keys become insertion-ordered
association lists, fallible operations return `Except`, and the two opaque
model providers (embedding gateway, generation gateway) become injected
functions.  Floating-point embedding vectors are modelled with exact `Int`
coordinates, which preserves every ordering/stability/round-trip property at
issue.  Definitions named after the Python functions are direct translations
of `src/loader.py`, `src/vectorstore.py` and `src/rag.py`; definitions whose
doc comment starts with "Modelled from the spec:" stand in for behaviour
implemented by external libraries (FAISS, langchain) that is not part of the
repository sources.
-/

/-- Strings are modelled as explicit character lists. -/
abbrev Str := List Char

/-- Whitespace test used by Python `str.strip` (ASCII whitespace set). -/
def pyIsSpace (c : Char) : Bool :=
  c = ' ' || c = '\t' || c = '\n' || c = '\x0d' || c = '\x0b' || c = '\x0c'

/-- Python `str.strip`: drop leading and trailing whitespace. -/
def pyStrip (s : Str) : Str :=
  ((s.dropWhile pyIsSpace).reverse.dropWhile pyIsSpace).reverse

/-- Python `str.lower` (ASCII case folding, the only case appearing here). -/
def pyLower (s : Str) : Str := s.map Char.toLower

/-- Python `line.split(sep, 1)` for a one-character separator: split at the
first occurrence, returning `none` when the separator does not occur (which
is exactly the `sep in line` test of the source). -/
def splitColon : Str → Option (Str × Str)
  | [] => none
  | c :: rest =>
    if c = ':' then some ([], rest)
    else (splitColon rest).map fun p => (c :: p.1, p.2)

/-- Python `str.split(a)` for a one-character separator: split at every
occurrence, separators removed.  Always returns at least one piece. -/
def splitSep1 (a : Char) : Str → List Str
  | [] => [[]]
  | c :: rest =>
    if c = a then [] :: splitSep1 a rest
    else
      match splitSep1 a rest with
      | [] => [[c]]
      | p :: ps => (c :: p) :: ps

/-- Python `str.split(ab)` for a two-character separator: split at every
occurrence, scanning left to right without overlap. -/
def splitSep2 (a b : Char) : Str → List Str
  | [] => [[]]
  | [c] => [[c]]
  | c :: d :: rest =>
    if c = a ∧ d = b then [] :: splitSep2 a b rest
    else
      match splitSep2 a b (d :: rest) with
      | [] => [[c]]
      | p :: ps => (c :: p) :: ps

/-- Python dict assignment `m[k] = v`: overwrite in place when the key is
present (keeping its original position), append otherwise. -/
def dictInsert (k v : Str) : List (Str × Str) → List (Str × Str)
  | [] => [(k, v)]
  | (k0, v0) :: rest =>
    if k0 = k then (k, v) :: rest else (k0, v0) :: dictInsert k v rest

/-- Python dict lookup `m.get(k)` on an association list. -/
def lookupD (m : List (Str × Str)) (k : Str) : Option Str :=
  match m with
  | [] => none
  | (k0, v) :: rest => if k0 = k then some v else lookupD rest k

/-- The metadata delimiter string of `parse_metadata`, three hyphens. -/
def hdelim : Str := ['-', '-', '-']

/-- Python `content.startswith('---')`. -/
def startsWithDelim : Str → Bool
  | c :: d :: e :: _ => decide (c = '-' ∧ d = '-' ∧ e = '-')
  | _ => false

/-- Locate the first occurrence of the substring `---`, Python
`str.find`-style: returns the text before it and the text after it. -/
def splitFirstD : Str → Option (Str × Str)
  | [] => none
  | [_] => none
  | [_, _] => none
  | c :: d :: e :: rest =>
    if c = '-' ∧ d = '-' ∧ e = '-' then some ([], rest)
    else
      match splitFirstD (d :: e :: rest) with
      | none => none
      | some (b, r) => some (c :: b, r)

/-- Python `content.split('---', 2)`: at most two splits, so at most three
parts, scanning left to right without overlap. -/
def splitD2 (s : Str) : List Str :=
  match splitFirstD s with
  | none => [s]
  | some (b1, r1) =>
    match splitFirstD r1 with
    | none => [b1, r1]
    | some (b2, r2) => [b1, b2, r2]

/-- Number of non-overlapping occurrences of the substring `---` found by a
left-to-right scan (the number of delimiters `str.split('---')` would find). -/
def countD : Str → Nat
  | c :: d :: e :: rest =>
    if c = '-' ∧ d = '-' ∧ e = '-' then 1 + countD rest
    else countD (d :: e :: rest)
  | _ => 0

/-- One iteration of the header loop of `parse_metadata`: when a colon
occurs in the line, split at the first colon and store the trimmed lowercased
key with the trimmed value; a line without a colon leaves the dict unchanged. -/
def headerStep (m : List (Str × Str)) (line : Str) : List (Str × Str) :=
  match splitColon line with
  | some (k, v) => dictInsert (pyLower (pyStrip k)) (pyStrip v) m
  | none => m

/-- The header loop of `parse_metadata` over all header lines. -/
def parseHeaderLines (lines : List Str) : List (Str × Str) :=
  List.foldl headerStep [] lines

/-- Translation of `parse_metadata` from `src/loader.py`: if the content
starts with `---`, split on `---` at most twice; given at least three parts,
parse the stripped middle part line by line into the metadata dict and return
it with the stripped final part; otherwise return an empty dict and the
content verbatim. -/
def parse_metadata (content : Str) : List (Str × Str) × Str :=
  if startsWithDelim content then
    match splitD2 content with
    | [_, p1, p2] => (parseHeaderLines (splitSep1 '\n' (pyStrip p1)), pyStrip p2)
    | _ => ([], content)
  else ([], content)

/-- The metadata mapping described by the spec sentence for claim C6, stated
from the spec words: every header line matching key colon value is
lowercased-keyed and trimmed into the mapping (splitting at the first colon),
and lines without a colon are skipped. -/
def specHeaderMap (headerRegion : Str) : List (Str × Str) :=
  parseHeaderLines (splitSep1 '\n' (pyStrip headerRegion))

/-- Boolean test that `pat` begins `s`. -/
def leadsWith : Str → Str → Bool
  | [], _ => true
  | _ :: _, [] => false
  | a :: as, b :: bs => a = b && leadsWith as bs

/-- Boolean substring test by scanning. -/
def containsSub (pat : Str) : Str → Bool
  | [] => pat.isEmpty
  | c :: rest => leadsWith pat (c :: rest) || containsSub pat rest

/-- A document or chunk: content plus a string-to-string metadata mapping,
the product type of the spec's data model (langchain `Document` objects carry
exactly `page_content` and `metadata`). -/
structure Doc where
  page_content : Str
  metadata : List (Str × Str)
deriving DecidableEq

/-- Worker for `chunksOf`: `acc` is the current piece reversed, `cap` the
number of characters it can still take before reaching `S` characters. -/
def chunksOfAux (S : Nat) : Str → Nat → Str → List Str
  | acc, _, [] => if acc.isEmpty then [] else [acc.reverse]
  | acc, 0, c :: rest => acc.reverse :: chunksOfAux S [c] (S - 1) rest
  | acc, Nat.succ n, c :: rest => chunksOfAux S (c :: acc) n rest

/-- Last-resort splitting at arbitrary character offsets: cut the text into
consecutive pieces of `S` characters (the final piece may be shorter). -/
def chunksOf (S : Nat) (s : Str) : List Str := chunksOfAux S [] S s

/-- Modelled from the spec: the recursive splitting heuristic of section 4.2
(the implementation lives in the external `langchain_text_splitters` library,
not in the repository sources).  A text already within the chunk size is kept
whole; otherwise it is split at the current preferred boundary type and each
piece still exceeding the chunk size is re-split with the next-preferred
boundary, bottoming out at arbitrary character offsets.  The spec allows
consecutive chunks to overlap by up to the overlap parameter; this model
realizes the lower end of that range (no re-attached overlap), which the
claims under verification do not constrain. -/
def applySplits (S : Nat) : List (Str → List Str) → Str → List Str
  | [], text => if text.length ≤ S then [text] else chunksOf S text
  | f :: fs, text =>
    if text.length ≤ S then [text]
    else (f text).flatMap (applySplits S fs)

/-- The ordered boundary preferences of the source splitter configuration,
`separators=["\n\n", "\n", ". ", " ", ""]` (the empty separator is the
character-offset base case of `applySplits`). -/
def sepFns : List (Str → List Str) :=
  [splitSep2 '\n' '\n', splitSep1 '\n', splitSep2 '.' ' ', splitSep1 ' ']

/-- Split one document body into chunk contents. -/
def splitTextRec (S : Nat) (t : Str) : List Str := applySplits S sepFns t

/-- Translation of `create_chunks` from `src/loader.py`: an empty document
list yields an empty chunk list (the guard is in the source); otherwise every
document is split with the recursive splitter and each chunk inherits the
parent document's metadata unchanged.  The overlap parameter is part of the
splitter configuration, see `applySplits`. -/
def create_chunks (documents : List Doc) (chunk_size chunk_overlap : Nat) : List Doc :=
  if documents = [] then []
  else
    documents.flatMap fun d =>
      (splitTextRec chunk_size d.page_content).map fun c => ⟨c, d.metadata⟩

/-- Modelled from the spec: a built vector index is an ownership container of
(embedding, chunk) pairs together with the embedding gateway used to embed
queries (the concrete structure is the external FAISS flat index, not part of
the repository sources).  Embedding coordinates are exact integers in place
of floats; this preserves the count/ordering/stability/round-trip properties
claimed of search. -/
structure VectorStore where
  embed : Str → List Int
  entries : List (List Int × Doc)

/-- Squared L2 distance between two embedding vectors. -/
def sqDist (u v : List Int) : Int :=
  ((u.zip v).map fun p => (p.1 - p.2) * (p.1 - p.2)).sum

/-- Ranking order of indexed entries for a query embedding: strictly smaller
distance first, ties broken by the original insertion position. -/
def entryLe (qv : List Int) (a b : Nat × (List Int × Doc)) : Prop :=
  sqDist qv a.2.1 < sqDist qv b.2.1 ∨
    (sqDist qv a.2.1 = sqDist qv b.2.1 ∧ a.1 ≤ b.1)

instance (qv : List Int) : DecidableRel (entryLe qv) := fun a b => by
  unfold entryLe
  exact inferInstance

instance (qv : List Int) : IsTotal (Nat × (List Int × Doc)) (entryLe qv) where
  total a b := by unfold entryLe; omega

instance (qv : List Int) : IsTrans (Nat × (List Int × Doc)) (entryLe qv) where
  trans a b c hab hbc := by unfold entryLe at hab hbc ⊢; omega

/-- Modelled from the spec: the full similarity ranking of the index for a
query — embed the query with the index's gateway and stably sort the indexed
entries by ascending distance, insertion order breaking ties. -/
def rankEntries (vs : VectorStore) (query : Str) : List (Nat × (List Int × Doc)) :=
  List.insertionSort (entryLe (vs.embed query)) vs.entries.enum

/-- Translation of `search` from `src/vectorstore.py` on a live store (the
source raises on a `None` store; here the store argument is already a built
store): delegate to similarity search, returning the top `k` ranked chunks. -/
def search (vs : VectorStore) (query : Str) (k : Nat) : List Doc :=
  ((rankEntries vs query).take k).map fun e => e.2.2

/-- Modelled from the spec: `save_vector_store` persists the index as an
opaque blob — the vector blob (`index.faiss`) and the chunk/metadata blob
(`index.pkl`), with on-disk mechanics abstracted away. -/
def save_vector_store (vs : VectorStore) : List (List Int) × List Doc :=
  (vs.entries.map Prod.fst, vs.entries.map Prod.snd)

/-- Modelled from the spec: `load_vector_store` reconstructs the index from
the persisted blobs and a caller-supplied embedding gateway, re-pairing the
stored vectors with their chunks without recomputing any embedding. -/
def load_vector_store (blob : List (List Int) × List Doc)
    (embeddings : Str → List Int) : VectorStore :=
  ⟨embeddings, blob.1.zip blob.2⟩

/-- Error taxonomy of the spec.  `emptyInputError` models the
`ValueError("Cannot create vector store from empty chunks list")` the source
raises. -/
inductive RagError
  | emptyInputError
  | notFoundError
deriving DecidableEq

/-- Translation of `create_vector_store` from `src/vectorstore.py`: reject an
empty chunk list eagerly; otherwise resolve the optional embedding gateway
argument (a fresh default gateway when `None` is passed) and build the store,
embedding every chunk in order (the embedding loop itself is the external
`FAISS.from_documents`, modelled from the spec as order-preserving one
embedding per chunk). -/
def create_vector_store (chunks : List Doc)
    (embeddings : Option (Str → List Int))
    (defaultEmb : Str → List Int) : Except RagError VectorStore :=
  if chunks = [] then Except.error RagError.emptyInputError
  else
    Except.ok ⟨embeddings.getD defaultEmb,
      chunks.map fun c => ((embeddings.getD defaultEmb) c.page_content, c)⟩

/-- A deduplicated citation record, the `{file, author, topic}` dict built by
`ask` (Python compares these small dicts structurally; so does this type). -/
structure SourceInfo where
  file : Str
  author : Str
  topic : Str
deriving DecidableEq

/-- The result dict returned by `KnowledgeBaseRAG.ask`. -/
structure Retrieval where
  question : Str
  answer : Str
  sources : List SourceInfo
  num_chunks_used : Nat
deriving DecidableEq

/-- One invocation of an external gateway: embedding a query text (performed
inside similarity search) or invoking the generation model on a prompt.
Constructing clients, as `_init_llm` does, is not a gateway call. -/
inductive GatewayCall
  | embedQuery : Str → GatewayCall
  | llmInvoke : Str → GatewayCall
deriving DecidableEq

/-- The orchestrator state relevant to `ask`: the optionally attached vector
index and the lazily initialized generation model. -/
structure RAGState where
  vectorstore : Option VectorStore
  llm : Option (Str → Str)

/-- Python `metadata.get(key, default)`. -/
def metaGetD (m : List (Str × Str)) (k d : Str) : Str :=
  match lookupD m k with
  | some v => v
  | none => d

/-- The metadata keys and fallback literal used by `ask`. -/
def sourceKey : Str := "source".data

def authorKey : Str := "author".data

def topicKey : Str := "topic".data

def unknownStr : Str := "Unknown".data

/-- The citation record `ask` builds for one retrieved chunk: each field read
with `metadata.get(key, 'Unknown')`. -/
def sourceInfoOf (d : Doc) : SourceInfo :=
  ⟨metaGetD d.metadata sourceKey unknownStr,
    metaGetD d.metadata authorKey unknownStr,
    metaGetD d.metadata topicKey unknownStr⟩

/-- The labeled context block `ask` formats for the chunk of rank `i`
(1-based): `[Source i: file by author]` on its own line, then the chunk
content. -/
def contextBlock (i : Nat) (d : Doc) : Str :=
  "[Source ".data ++ Nat.toDigits 10 i ++ ": ".data ++
    metaGetD d.metadata sourceKey unknownStr ++ " by ".data ++
    metaGetD d.metadata authorKey unknownStr ++ "]\n".data ++ d.page_content

/-- Join a list of strings with a separator, Python `sep.join(parts)`. -/
def joinSep (sep : Str) : List Str → Str
  | [] => []
  | [x] => x
  | x :: y :: rest => x ++ sep ++ joinSep sep (y :: rest)

/-- Apostrophe character, kept out of string literals. -/
def apoc : Char := Char.ofNat 39

/-- Leading part of the generation prompt of `ask`, up to the context. -/
def promptPre : Str :=
  "Based on the following context from a knowledge base, please answer the question.\nOnly use information from the context provided. If the context doesn".data ++
    [apoc] ++ "t contain enough information\nto fully answer the question, say so clearly.\n\nContext:\n".data

/-- Middle part of the generation prompt, between context and question. -/
def promptMid : Str := "\n\nQuestion: ".data

/-- Trailing part of the generation prompt, after the question. -/
def promptPost : Str :=
  "\n\nAnswer: Provide a clear, comprehensive answer based on the context above. Include specific details\nand cite which sources you".data ++
    [apoc] ++ "re drawing from when relevant.".data

/-- The deterministic prompt `ask` sends to the generation gateway. -/
def promptText (context question : Str) : Str :=
  promptPre ++ context ++ promptMid ++ question ++ promptPost

/-- The not-ready answer of `ask` when no vector index is attached (the
leading cross-mark emoji of the source message, then the explanation). -/
def notReadyMsg : Str :=
  [Char.ofNat 0x274C, ' '] ++
    "Knowledge base not initialized. Load documents and create index first.".data

/-- The fixed answer of `ask` when search returns no chunks. -/
def noInfoMsg : Str :=
  "No relevant information found in the knowledge base for this question.".data

/-- Worker for `specDedup`: `seen` is the lookup set of records already kept
(the explicit ordered-set formulation of the spec's design notes). -/
def specDedupAux {α : Type} [DecidableEq α] (seen : List α) : List α → List α
  | [] => []
  | x :: xs =>
    if x ∈ seen then specDedupAux seen xs
    else x :: specDedupAux (x :: seen) xs

/-- First-occurrence deduplication as the spec words it for claim C1: scan
the records in rank order and keep a record only when an identical record has
not been seen before; first occurrences keep their relative order. -/
def specDedup {α : Type} [DecidableEq α] (l : List α) : List α :=
  specDedupAux [] l

/-- Translation of `KnowledgeBaseRAG.ask` from `src/rag.py`.  The returned
pair is the result dict of the source together with the list of gateway
invocations the call performed, in order.  `_init_llm` (client construction,
lazily resolving the default generation model) happens before the readiness
guard but performs no gateway invocation; with no index attached the call
returns the not-ready result; with zero retrieved chunks it returns the
no-information result after the one query-embedding call of search; otherwise
it assembles the rank-ordered labeled context, invokes the generation gateway
once on the deterministic prompt, deduplicates the citation list by
first occurrence, and reports the raw retrieved-chunk count. -/
def ask (defaultLLM : Str → Str) (st : RAGState) (question : Str) (k : Nat) :
    Retrieval × List GatewayCall :=
  let llm := st.llm.getD defaultLLM
  match st.vectorstore with
  | none => (⟨question, notReadyMsg, [], 0⟩, [])
  | some vs =>
    let relevant_docs := search vs question k
    if relevant_docs = [] then
      (⟨question, noInfoMsg, [], 0⟩, [GatewayCall.embedQuery question])
    else
      let context := joinSep ['\n', '\n']
        (relevant_docs.enum.map fun p => contextBlock (p.1 + 1) p.2)
      let prompt := promptText context question
      let answer := llm prompt
      let sources := relevant_docs.foldl
        (fun acc d =>
          if sourceInfoOf d ∈ acc then acc else acc ++ [sourceInfoOf d])
        []
      (⟨question, answer, sources, relevant_docs.length⟩,
        [GatewayCall.embedQuery question, GatewayCall.llmInvoke prompt])

/-- Witness data: two chunks from the same file then one from another. -/
def wDocA1 : Doc :=
  ⟨"alpha".data, [(sourceKey, "a.txt".data), (authorKey, "A".data), (topicKey, "T".data)]⟩

def wDocA2 : Doc :=
  ⟨"beta".data, [(sourceKey, "a.txt".data), (authorKey, "A".data), (topicKey, "T".data)]⟩

def wDocB : Doc :=
  ⟨"gamma".data, [(sourceKey, "b.txt".data), (authorKey, "B".data), (topicKey, "U".data)]⟩

/-- Witness index over the three chunks, the third farther from any query. -/
def wVS : VectorStore := ⟨fun _ => [0], [([0], wDocA1), ([0], wDocA2), ([1], wDocB)]⟩

/-- Witness generation gateway. -/
def wLLM : Str → Str := fun _ => "ok".data

/-- Witness orchestrator state with the witness index attached. -/
def wState : RAGState := ⟨some wVS, some wLLM⟩

/-- Witness orchestrator state with no index attached. -/
def wStateNone : RAGState := ⟨none, none⟩

/-- Witness question. -/
def wQ : Str := "q".data

/-- Witness chunks with no metadata at all (every key missing). -/
def wDocU1 : Doc := ⟨"u one".data, []⟩

def wDocU2 : Doc := ⟨"u two".data, []⟩

theorem splitColon_eq (line : Str) : ∀ k v : Str,
    splitColon line = some (k, v) → line = k ++ ':' :: v ∧ ':' ∉ k := by
  induction line with
  | nil => intro k v h; simp [splitColon] at h
  | cons c rest ih =>
    intro k v h
    by_cases hc : c = ':'
    · subst hc
      simp [splitColon] at h
      obtain ⟨hk, hv⟩ := h
      subst hk; subst hv
      simp
    · simp only [splitColon, if_neg hc, Option.map_eq_some'] at h
      obtain ⟨⟨k1, v1⟩, hkv, hmap⟩ := h
      injection hmap with hk hv
      subst hk
      subst hv
      obtain ⟨hrest, hnk⟩ := ih k1 v1 hkv
      subst hrest
      refine ⟨rfl, ?_⟩
      simp only [List.mem_cons, not_or]
      exact ⟨fun h => hc h.symm, hnk⟩

theorem countD_zero (s : Str) (h : countD s = 0) : splitFirstD s = none := by
  induction s with
  | nil => rfl
  | cons c rest ih =>
    match rest, ih with
    | [], _ => rfl
    | [d], _ => rfl
    | d :: e :: rest2, ih =>
      by_cases hde : c = '-' ∧ d = '-' ∧ e = '-'
      · simp [countD, hde] at h
      · rw [countD, if_neg hde] at h
        rw [splitFirstD, if_neg hde, ih h]

theorem splitFirstD_append (b : Str) : ∀ a : Str, splitFirstD a = none →
    a.getLast? ≠ some '-' →
    splitFirstD (a ++ '-' :: '-' :: '-' :: b) = some (a, b) := by
  intro a
  induction a with
  | nil => intro _ _; simp [splitFirstD]
  | cons c rest ih =>
    intro h1 h2
    rcases rest with _ | ⟨y, rest2⟩
    · have hc : c ≠ '-' := by simpa using h2
      simp [splitFirstD, hc]
    · rcases rest2 with _ | ⟨z, t⟩
      · have hy : y ≠ '-' := by simpa using h2
        simp [splitFirstD, hy]
      · rw [splitFirstD] at h1
        by_cases hcyz : c = '-' ∧ y = '-' ∧ z = '-'
        · rw [if_pos hcyz] at h1; cases h1
        · rw [if_neg hcyz] at h1
          have h1' : splitFirstD (y :: z :: t) = none := by
            cases hsf : splitFirstD (y :: z :: t) with
            | none => rfl
            | some p => rw [hsf] at h1; cases h1
          have h2' : (y :: z :: t).getLast? ≠ some '-' := by
            rwa [List.getLast?_cons_cons] at h2
          have ihres := ih h1' h2'
          simp only [List.cons_append] at ihres ⊢
          rw [splitFirstD, if_neg hcyz, ihres]

theorem lookupD_dictInsert_self (k v : Str) : ∀ m : List (Str × Str),
    lookupD (dictInsert k v m) k = some v := by
  intro m
  induction m with
  | nil => simp [dictInsert, lookupD]
  | cons p rest ih =>
    obtain ⟨k0, v0⟩ := p
    by_cases hk : k0 = k
    · simp [dictInsert, hk, lookupD]
    · simp [dictInsert, hk, lookupD, ih]

theorem lookupD_dictInsert_ne (k v q : Str) (hq : k ≠ q) : ∀ m : List (Str × Str),
    lookupD (dictInsert k v m) q = lookupD m q := by
  intro m
  induction m with
  | nil => simp [dictInsert, lookupD, hq]
  | cons p rest ih =>
    obtain ⟨k0, v0⟩ := p
    by_cases hk : k0 = k
    · subst hk
      simp [dictInsert, lookupD, hq]
    · by_cases hk0q : k0 = q
      · subst hk0q
        simp [dictInsert, hk, lookupD]
      · simp [dictInsert, hk, lookupD, hk0q, ih]

theorem lookupD_dictInsert_isSome (k v q : Str) (m : List (Str × Str))
    (h : (lookupD m q).isSome = true) :
    (lookupD (dictInsert k v m) q).isSome = true := by
  by_cases hq : k = q
  · subst hq
    rw [lookupD_dictInsert_self]
    rfl
  · rw [lookupD_dictInsert_ne k v q hq]
    exact h

theorem headerStep_isSome (q : Str) (m : List (Str × Str)) (line : Str)
    (h : (lookupD m q).isSome = true) :
    (lookupD (headerStep m line) q).isSome = true := by
  cases hsc : splitColon line with
  | none => simpa [headerStep, hsc] using h
  | some p =>
    obtain ⟨k, v⟩ := p
    simpa [headerStep, hsc] using lookupD_dictInsert_isSome _ _ _ _ h

theorem foldl_headerStep_isSome (q : Str) : ∀ (lines : List Str) (m : List (Str × Str)),
    (lookupD m q).isSome = true →
    (lookupD (List.foldl headerStep m lines) q).isSome = true := by
  intro lines
  induction lines with
  | nil => intro m h; exact h
  | cons line rest ih =>
    intro m h
    exact ih _ (headerStep_isSome q m line h)

theorem foldl_headerStep_key (k v : Str) : ∀ (lines : List Str) (m : List (Str × Str))
    (line : Str), line ∈ lines → splitColon line = some (k, v) →
    (lookupD (List.foldl headerStep m lines) (pyLower (pyStrip k))).isSome = true := by
  intro lines
  induction lines with
  | nil => intro m line hmem; cases hmem
  | cons l0 rest ih =>
    intro m line hmem hsc
    rcases List.mem_cons.mp hmem with heq | hmem2
    · subst heq
      rw [List.foldl_cons]
      apply foldl_headerStep_isSome
      simp only [headerStep, hsc, lookupD_dictInsert_self]
      rfl
    · rw [List.foldl_cons]
      exact ih _ line hmem2 hsc

theorem foldl_headerStep_skip : ∀ (lines : List Str) (m : List (Str × Str)),
    List.foldl headerStep m lines =
      List.foldl headerStep m (lines.filter fun l => (splitColon l).isSome) := by
  intro lines
  induction lines with
  | nil => intro m; rfl
  | cons l0 rest ih =>
    intro m
    cases hsc : splitColon l0 with
    | none =>
      have hstep : headerStep m l0 = m := by simp [headerStep, hsc]
      simp only [List.foldl_cons, List.filter_cons, hsc, Option.isSome_none, hstep]
      exact ih m
    | some p =>
      have : (splitColon l0).isSome = true := by rw [hsc]; rfl
      simp only [List.foldl_cons, List.filter_cons, this, if_pos]
      exact ih _

theorem parse_metadata_decomp (a b : Str) (h1 : splitFirstD a = none)
    (h2 : a.getLast? ≠ some '-') :
    parse_metadata (hdelim ++ a ++ ('-' :: '-' :: '-' :: b)) =
      (specHeaderMap a, pyStrip b) := by
  have hs2 := splitFirstD_append b a h1 h2
  simp only [hdelim, List.cons_append, List.nil_append, List.append_assoc]
  rw [parse_metadata]
  have hsw : startsWithDelim ('-' :: '-' :: '-' :: (a ++ '-' :: '-' :: '-' :: b)) = true := by
    simp [startsWithDelim]
  rw [if_pos hsw]
  have hs1 : splitFirstD ('-' :: '-' :: '-' :: (a ++ '-' :: '-' :: '-' :: b)) =
      some ([], a ++ '-' :: '-' :: '-' :: b) := by
    cases ha : a ++ '-' :: '-' :: '-' :: b with
    | nil => simp at ha
    | cons x xs => rw [splitFirstD]; simp
  simp only [splitD2, hs1, hs2, specHeaderMap, parseHeaderLines]

/-- C6: for content with a well-formed two-delimiter header (the delimiters
on their own lines, the header region free of further delimiter substrings),
`parse_metadata` returns exactly the spec-described mapping of the header
region together with the stripped body after the second delimiter; every
header line containing a colon contributes its trimmed lowercased key to the
mapping, lines without a colon are silently skipped, and the split happens at
the first colon only, so the value keeps any further colons. -/
theorem parse_metadata_wellformed_header (h b : Str)
    (hno : splitFirstD ('\n' :: (h ++ ['\n'])) = none) :
    parse_metadata (hdelim ++ ('\n' :: (h ++ ['\n'])) ++ ('-' :: '-' :: '-' :: b)) =
      (specHeaderMap ('\n' :: (h ++ ['\n'])), pyStrip b) ∧
    (∀ line ∈ splitSep1 '\n' (pyStrip ('\n' :: (h ++ ['\n']))), ∀ k v : Str,
      splitColon line = some (k, v) →
        (lookupD (specHeaderMap ('\n' :: (h ++ ['\n']))) (pyLower (pyStrip k))).isSome = true) ∧
    (specHeaderMap ('\n' :: (h ++ ['\n'])) =
      parseHeaderLines ((splitSep1 '\n' (pyStrip ('\n' :: (h ++ ['\n'])))).filter
        fun l => (splitColon l).isSome)) ∧
    (∀ line k v : Str, splitColon line = some (k, v) → line = k ++ ':' :: v ∧ ':' ∉ k) := by
  have hlast : ('\n' :: (h ++ ['\n'])).getLast? ≠ some '-' := by
    rw [← List.cons_append, List.getLast?_concat]
    simp
  refine ⟨parse_metadata_decomp _ b hno hlast, ?_, ?_, splitColon_eq⟩
  · intro line hmem k v hsc
    exact foldl_headerStep_key k v _ [] line hmem hsc
  · exact foldl_headerStep_skip _ []

/-- C6 witness: the spec example, a header declaring an author and a topic
followed by a body. -/
theorem parse_metadata_wellformed_header_witness :
    splitFirstD ('\n' :: ("Author: A\nTopic: T".data ++ ['\n'])) = none ∧
    parse_metadata (hdelim ++ ('\n' :: ("Author: A\nTopic: T".data ++ ['\n'])) ++
        ('-' :: '-' :: '-' :: "\nBody text".data)) =
      (specHeaderMap ('\n' :: ("Author: A\nTopic: T".data ++ ['\n'])),
        pyStrip ("\nBody text".data)) ∧
    specHeaderMap ('\n' :: ("Author: A\nTopic: T".data ++ ['\n'])) =
      [("author".data, "A".data), ("topic".data, "T".data)] ∧
    pyStrip ("\nBody text".data) = "Body text".data :=
  ⟨by decide,
    (parse_metadata_wellformed_header "Author: A\nTopic: T".data "\nBody text".data
      (by decide)).1,
    by decide, by decide⟩

/-- C8 counterexample: in `"---Author: A---Body"` no line consists of three
hyphens (there is a single line, and it is not `---`), yet `parse_metadata`
recognizes a header and does not return the content verbatim — the parser
splits on the three-hyphen substring, not on three-hyphen lines. -/
theorem parse_metadata_inline_delim_cex :
    (∀ line ∈ splitSep1 '\n' ("---Author: A---Body".data), line ≠ hdelim) ∧
    parse_metadata ("---Author: A---Body".data) ≠ ([], "---Author: A---Body".data) ∧
    parse_metadata ("---Author: A---Body".data) =
      ([("author".data, "A".data)], "Body".data) := by
  refine ⟨by decide, by decide, by decide⟩

theorem splitSep1_no_sep (c : Char) : ∀ s : Str, c ∉ s → splitSep1 c s = [s] := by
  intro s
  induction s with
  | nil => intro _; rfl
  | cons x rest ih =>
    intro hmem
    have hx : ¬x = c := fun hh => hmem (hh ▸ List.mem_cons_self x rest)
    have hrest : c ∉ rest := fun hh => hmem (List.mem_cons_of_mem x hh)
    rw [splitSep1, if_neg hx, ih hrest]

theorem pyStrip_mem_sub (c : Char) : ∀ s : Str, c ∉ s → c ∉ pyStrip s := by
  intro s hmem hin
  apply hmem
  have h1 : c ∈ (s.dropWhile pyIsSpace).reverse.dropWhile pyIsSpace := by
    simpa [pyStrip] using hin
  have h2 : c ∈ (s.dropWhile pyIsSpace).reverse := (List.dropWhile_sublist _).subset h1
  have h3 : c ∈ s.dropWhile pyIsSpace := List.mem_reverse.mp h2
  exact (List.dropWhile_sublist _).subset h3

/-- C8 amended: any occurrence of the three-character substring `---` acts as
a header delimiter regardless of line structure.  For content consisting of a
leading `---`, a delimiter-free region `a` that contains no newline at all
(so neither delimiter sits on its own line), another `---` and a remainder,
`parse_metadata` still recognizes `a` as the header region — parsed as a
single header line — and strips the remainder into the body. -/
theorem parse_metadata_substring_delim (a b : Str) (h1 : splitFirstD a = none)
    (h2 : a.getLast? ≠ some '-') (h3 : '\n' ∉ a) :
    parse_metadata (hdelim ++ a ++ ('-' :: '-' :: '-' :: b)) =
      (specHeaderMap a, pyStrip b) ∧
    splitSep1 '\n' (pyStrip a) = [pyStrip a] := by
  refine ⟨parse_metadata_decomp a b h1 h2, ?_⟩
  exact splitSep1_no_sep '\n' (pyStrip a) (pyStrip_mem_sub '\n' a h3)

/-- C8 amended witness: an inline header region between two inline delimiter
substrings is parsed as a one-line header. -/
theorem parse_metadata_substring_delim_witness :
    (splitFirstD ("Author: A".data) = none ∧
      ("Author: A".data : Str).getLast? ≠ some '-' ∧ '\n' ∉ ("Author: A".data : Str)) ∧
    parse_metadata (hdelim ++ "Author: A".data ++ ('-' :: '-' :: '-' :: "Body".data)) =
      (specHeaderMap ("Author: A".data), pyStrip ("Body".data)) ∧
    splitSep1 '\n' (pyStrip ("Author: A".data)) = [pyStrip ("Author: A".data)] :=
  ⟨⟨by decide, by decide, by decide⟩,
    (parse_metadata_substring_delim "Author: A".data "Body".data
      (by decide) (by decide) (by decide)).1,
    (parse_metadata_substring_delim "Author: A".data "Body".data
      (by decide) (by decide) (by decide)).2⟩

/-- C7: for content not beginning with the delimiter, or containing fewer
than two delimiter occurrences, `parse_metadata` returns an empty metadata
mapping and the content verbatim. -/
theorem parse_metadata_no_header (content : Str)
    (h : startsWithDelim content = false ∨ countD content < 2) :
    parse_metadata content = ([], content) := by
  by_cases hs : startsWithDelim content = true
  · have hcount : countD content < 2 := by
      rcases h with h | h
      · rw [hs] at h; cases h
      · exact h
    match content, hs with
    | c :: d :: e :: rest, hs =>
      have hde : c = '-' ∧ d = '-' ∧ e = '-' := by
        simpa [startsWithDelim] using hs
      have h1 : splitFirstD (c :: d :: e :: rest) = some ([], rest) := by
        rw [splitFirstD, if_pos hde]
      have h2 : countD rest = 0 := by
        rw [countD, if_pos hde] at hcount
        omega
      rw [parse_metadata, if_pos hs]
      simp [splitD2, h1, countD_zero rest h2]
  · rw [parse_metadata, if_neg hs]

/-- C7 witness: the empty string yields an empty mapping and an empty body. -/
theorem parse_metadata_no_header_witness :
    (startsWithDelim [] = false ∨ countD [] < 2) ∧ parse_metadata [] = ([], []) :=
  ⟨Or.inl rfl, parse_metadata_no_header [] (Or.inl rfl)⟩

theorem chunksOfAux_mem_le (S : Nat) (hS : 1 ≤ S) : ∀ (s acc : Str) (cap : Nat),
    acc.length + cap = S → ∀ ch ∈ chunksOfAux S acc cap s, ch.length ≤ S := by
  intro s
  induction s with
  | nil =>
    intro acc cap hinv ch hch
    rw [chunksOfAux] at hch
    by_cases hacc : acc.isEmpty
    · rw [if_pos hacc] at hch
      cases hch
    · rw [if_neg hacc] at hch
      have : ch = acc.reverse := by simpa using hch
      subst this
      simp only [List.length_reverse]
      omega
  | cons c rest ih =>
    intro acc cap hinv ch hch
    cases cap with
    | zero =>
      rw [chunksOfAux] at hch
      rcases List.mem_cons.mp hch with heq | hmem
      · subst heq
        simp only [List.length_reverse]
        omega
      · exact ih [c] (S - 1) (by simp; omega) ch hmem
    | succ n =>
      rw [chunksOfAux] at hch
      exact ih (c :: acc) n (by simp at hinv ⊢; omega) ch hch

theorem chunksOfAux_ne_nil (S : Nat) : ∀ (s acc : Str) (cap : Nat),
    s ≠ [] ∨ acc ≠ [] → chunksOfAux S acc cap s ≠ [] := by
  intro s
  induction s with
  | nil =>
    intro acc cap h
    have hacc : acc ≠ [] := by
      rcases h with h | h
      · cases h rfl
      · exact h
    rw [chunksOfAux, if_neg (by simpa using hacc)]
    simp
  | cons c rest ih =>
    intro acc cap h
    cases cap with
    | zero => rw [chunksOfAux]; simp
    | succ n =>
      rw [chunksOfAux]
      exact ih (c :: acc) n (Or.inr (by simp))

theorem splitSep1_ne_nil (a : Char) (s : Str) : splitSep1 a s ≠ [] := by
  match s with
  | [] => simp [splitSep1]
  | c :: rest =>
    rw [splitSep1]
    by_cases hc : c = a
    · simp [hc]
    · rw [if_neg hc]
      cases hsp : splitSep1 a rest with
      | nil => simp
      | cons p ps => simp

theorem splitSep2_ne_nil (a b : Char) (s : Str) : splitSep2 a b s ≠ [] := by
  match s with
  | [] => simp [splitSep2]
  | [c] => simp [splitSep2]
  | c :: d :: rest =>
    rw [splitSep2]
    by_cases h : c = a ∧ d = b
    · simp [h]
    · rw [if_neg h]
      cases hsp : splitSep2 a b (d :: rest) with
      | nil => simp
      | cons p ps => simp

theorem applySplits_mem_le (S : Nat) (hS : 1 ≤ S) : ∀ (fs : List (Str → List Str)) (t : Str),
    ∀ ch ∈ applySplits S fs t, ch.length ≤ S := by
  intro fs
  induction fs with
  | nil =>
    intro t ch hch
    rw [applySplits] at hch
    by_cases hlen : t.length ≤ S
    · rw [if_pos hlen] at hch
      have : ch = t := by simpa using hch
      subst this
      exact hlen
    · rw [if_neg hlen] at hch
      exact chunksOfAux_mem_le S hS t [] S (by simp) ch hch
  | cons f fs ih =>
    intro t ch hch
    rw [applySplits] at hch
    by_cases hlen : t.length ≤ S
    · rw [if_pos hlen] at hch
      have : ch = t := by simpa using hch
      subst this
      exact hlen
    · rw [if_neg hlen] at hch
      obtain ⟨p, _, hchp⟩ := List.mem_flatMap.mp hch
      exact ih p ch hchp

theorem applySplits_ne_nil (S : Nat) : ∀ fs : List (Str → List Str),
    (∀ f ∈ fs, ∀ t, f t ≠ []) → ∀ t : Str, applySplits S fs t ≠ [] := by
  intro fs
  induction fs with
  | nil =>
    intro _ t
    rw [applySplits]
    by_cases hlen : t.length ≤ S
    · rw [if_pos hlen]; simp
    · rw [if_neg hlen]
      have ht : t ≠ [] := by
        intro hc
        subst hc
        simp at hlen
      exact chunksOfAux_ne_nil S t [] S (Or.inl ht)
  | cons f fs ih =>
    intro hfs t
    rw [applySplits]
    by_cases hlen : t.length ≤ S
    · rw [if_pos hlen]; simp
    · rw [if_neg hlen]
      intro hcontra
      obtain ⟨p, hp⟩ := List.exists_mem_of_ne_nil _ (hfs f (List.mem_cons_self f fs) t)
      have hg : applySplits S fs p ≠ [] :=
        ih (fun g hg t2 => hfs g (List.mem_cons_of_mem f hg) t2) p
      obtain ⟨ch, hch⟩ := List.exists_mem_of_ne_nil _ hg
      have : ch ∈ (f t).flatMap (applySplits S fs) :=
        List.mem_flatMap.mpr ⟨p, hp, hch⟩
      rw [hcontra] at this
      cases this

theorem sepFns_ne_nil : ∀ f ∈ sepFns, ∀ t : Str, f t ≠ [] := by
  intro f hf t
  rw [sepFns] at hf
  rcases List.mem_cons.mp hf with h | hf
  · subst h; exact splitSep2_ne_nil '\n' '\n' t
  rcases List.mem_cons.mp hf with h | hf
  · subst h; exact splitSep1_ne_nil '\n' t
  rcases List.mem_cons.mp hf with h | hf
  · subst h; exact splitSep2_ne_nil '.' ' ' t
  rcases List.mem_cons.mp hf with h | hf
  · subst h; exact splitSep1_ne_nil ' ' t
  cases hf

theorem flatMap_length_ge {α β : Type} : ∀ (l : List α) (g : α → List β),
    (∀ x ∈ l, g x ≠ []) → l.length ≤ (l.flatMap g).length := by
  intro l
  induction l with
  | nil => intro g _; simp
  | cons x xs ih =>
    intro g hg
    rw [List.flatMap_cons, List.length_append, List.length_cons]
    have h1 : 1 ≤ (g x).length :=
      List.length_pos.mpr (hg x (List.mem_cons_self x xs))
    have h2 : xs.length ≤ (xs.flatMap g).length :=
      ih g fun y hy => hg y (List.mem_cons_of_mem x hy)
    omega

/-- C9: with overlap below chunk size, every chunk produced by
`create_chunks` has content length at most the chunk size (the modelled
splitter always bottoms out at character offsets, so a valid split point
below the chunk size always exists), a non-empty document list yields at
least as many chunks as documents, and the empty document list yields the
empty chunk list. -/
theorem create_chunks_bounds (docs : List Doc) (S O : Nat) (hO : O < S) :
    (∀ ch ∈ create_chunks docs S O, ch.page_content.length ≤ S) ∧
    (docs ≠ [] → docs.length ≤ (create_chunks docs S O).length) ∧
    create_chunks ([] : List Doc) S O = [] := by
  have hS : 1 ≤ S := by omega
  refine ⟨?_, ?_, rfl⟩
  · intro ch hch
    rw [create_chunks] at hch
    by_cases hdocs : docs = []
    · rw [if_pos hdocs] at hch
      cases hch
    · rw [if_neg hdocs] at hch
      obtain ⟨d, _, hchd⟩ := List.mem_flatMap.mp hch
      obtain ⟨c, hc, hcd⟩ := List.mem_map.mp hchd
      subst hcd
      exact applySplits_mem_le S hS sepFns d.page_content c hc
  · intro hdocs
    rw [create_chunks, if_neg hdocs]
    apply flatMap_length_ge
    intro d _
    intro hc
    have h1 : splitTextRec S d.page_content ≠ [] :=
      applySplits_ne_nil S sepFns sepFns_ne_nil d.page_content
    rw [List.map_eq_nil_iff] at hc
    exact h1 hc

/-- C9 witness: chunk size 5 with overlap 2 on one eleven-character document. -/
theorem create_chunks_bounds_witness :
    2 < 5 ∧
    ((∀ ch ∈ create_chunks [⟨"hello world".data, []⟩] 5 2, ch.page_content.length ≤ 5) ∧
      ([(⟨"hello world".data, []⟩ : Doc)] ≠ [] →
        (1 : Nat) ≤ (create_chunks [⟨"hello world".data, []⟩] 5 2).length) ∧
      create_chunks ([] : List Doc) 5 2 = []) :=
  ⟨by decide, create_chunks_bounds [⟨"hello world".data, []⟩] 5 2 (by decide)⟩

/-- C2: for every built index, query and requested count, search returns
exactly `min k index_size` chunks; the ranked prefix it projects from is
pairwise ordered by `entryLe`, i.e. by non-decreasing distance from the query
embedding with ties broken by ascending insertion position; the full ranking
is a permutation of the indexed entries (so the prefix consists of the `k`
entries ranked smallest); and, search being a pure function of the index and
the query, repeated identical queries against the unchanged index return the
identical result. -/
theorem search_count_order_stable (vs : VectorStore) (query : Str) (k : Nat) :
    (search vs query k).length = min k vs.entries.length ∧
    List.Sorted (entryLe (vs.embed query)) ((rankEntries vs query).take k) ∧
    (rankEntries vs query).Perm vs.entries.enum ∧
    search vs query k = search vs query k := by
  refine ⟨?_, ?_, List.perm_insertionSort _ _, rfl⟩
  · rw [search, List.length_map, List.length_take]
    have hlen : (rankEntries vs query).length = vs.entries.length := by
      rw [rankEntries,
        (List.perm_insertionSort (entryLe (vs.embed query)) vs.entries.enum).length_eq]
      exact List.enum_length
    rw [hlen]
  · exact List.Pairwise.sublist (List.take_sublist k _)
      (List.sorted_insertionSort (entryLe (vs.embed query)) vs.entries.enum)

/-- C3: persisting a built index and restoring it with the same embedding
gateway reproduces the index itself — the stored vectors are re-paired with
their chunks bit-exactly, no embedding is recomputed (`load_vector_store`
never applies the gateway to any chunk) — and therefore search returns
exactly equal results for every query and every requested count. -/
theorem save_load_roundtrip (vs : VectorStore) (query : Str) (k : Nat) :
    load_vector_store (save_vector_store vs) vs.embed = vs ∧
    search (load_vector_store (save_vector_store vs) vs.embed) query k =
      search vs query k := by
  have hzip : (vs.entries.map Prod.fst).zip (vs.entries.map Prod.snd) = vs.entries := by
    have h := List.unzip_eq_map vs.entries
    have h1 : vs.entries.map Prod.fst = vs.entries.unzip.1 := by rw [h]
    have h2 : vs.entries.map Prod.snd = vs.entries.unzip.2 := by rw [h]
    rw [h1, h2]
    exact List.zip_unzip vs.entries
  have hload : load_vector_store (save_vector_store vs) vs.embed = vs := by
    rw [load_vector_store, save_vector_store]
    cases vs with
    | mk e en => simp only at hzip ⊢; rw [hzip]
  exact ⟨hload, by rw [hload]⟩

/-- C4: building a vector index from an empty chunk sequence fails eagerly
with the empty-input error for every embeddings gateway argument (`None` or
supplied), constructing no index. -/
theorem create_vector_store_empty_rejected (embeddings : Option (Str → List Int))
    (defaultEmb : Str → List Int) :
    create_vector_store [] embeddings defaultEmb =
      Except.error RagError.emptyInputError := by
  rw [create_vector_store, if_pos rfl]

theorem specDedupAux_congr {α : Type} [DecidableEq α] : ∀ (l s1 s2 : List α),
    (∀ a, a ∈ s1 ↔ a ∈ s2) → specDedupAux s1 l = specDedupAux s2 l := by
  intro l
  induction l with
  | nil => intro s1 s2 _; rfl
  | cons x xs ih =>
    intro s1 s2 hiff
    rw [specDedupAux, specDedupAux]
    by_cases hx : x ∈ s1
    · rw [if_pos hx, if_pos ((hiff x).mp hx)]
      exact ih s1 s2 hiff
    · rw [if_neg hx, if_neg fun hc => hx ((hiff x).mpr hc)]
      rw [ih (x :: s1) (x :: s2) fun a => by simp [hiff a]]

theorem foldl_dedup_eq {α β : Type} [DecidableEq β] (f : α → β) : ∀ (l : List α)
    (acc : List β),
    l.foldl (fun acc d => if f d ∈ acc then acc else acc ++ [f d]) acc =
      acc ++ specDedupAux acc (l.map f) := by
  intro l
  induction l with
  | nil => intro acc; simp [specDedupAux]
  | cons x xs ih =>
    intro acc
    rw [List.foldl_cons, List.map_cons, specDedupAux]
    by_cases hx : f x ∈ acc
    · rw [if_pos hx, if_pos hx]
      exact ih acc
    · rw [if_neg hx, if_neg hx]
      rw [ih (acc ++ [f x])]
      rw [specDedupAux_congr (xs.map f) (acc ++ [f x]) (f x :: acc) fun a => by
        simp [or_comm]]
      rw [List.append_assoc]
      rfl

/-- C1: for every `ask` call whose search returns a non-empty chunk
sequence, the returned citation list equals the first-occurrence
deduplication of the per-chunk `{file, author, topic}` records taken in rank
order, while `num_chunks_used` is the raw retrieved-chunk count before
deduplication. -/
theorem ask_dedups_sources (defaultLLM : Str → Str) (st : RAGState) (question : Str)
    (k : Nat) (vs : VectorStore) (hvs : st.vectorstore = some vs)
    (hne : search vs question k ≠ []) :
    (ask defaultLLM st question k).1.sources =
      specDedup ((search vs question k).map sourceInfoOf) ∧
    (ask defaultLLM st question k).1.num_chunks_used =
      (search vs question k).length := by
  simp only [ask, hvs]
  simp only [if_neg hne]
  rw [foldl_dedup_eq sourceInfoOf (search vs question k) []]
  rw [specDedup]
  exact ⟨by trivial, by trivial⟩

/-- C1 witness: three retrieved chunks of which the first two share one
source record yield two citations and a raw chunk count of three. -/
theorem ask_dedups_sources_witness :
    (wState.vectorstore = some wVS ∧ search wVS wQ 3 ≠ []) ∧
    ((ask wLLM wState wQ 3).1.sources =
        specDedup ((search wVS wQ 3).map sourceInfoOf) ∧
      (ask wLLM wState wQ 3).1.num_chunks_used = (search wVS wQ 3).length) ∧
    (ask wLLM wState wQ 3).1.sources.length = 2 ∧
    (ask wLLM wState wQ 3).1.num_chunks_used = 3 :=
  ⟨⟨rfl, by decide⟩, ask_dedups_sources wLLM wState wQ 3 wVS rfl (by decide),
    by decide, by decide⟩

/-- C5: `ask` on an orchestrator with no vector index attached returns, as a
normal value, a result whose answer contains the explanatory not-ready
marker, whose sources list is empty and whose chunk count is zero, and the
call performs no gateway invocation (the lazy `_init_llm` only constructs a
client). -/
theorem ask_uninitialized (defaultLLM : Str → Str) (st : RAGState) (question : Str)
    (k : Nat) (h : st.vectorstore = none) :
    containsSub ("not initialized".data) (ask defaultLLM st question k).1.answer = true ∧
    (ask defaultLLM st question k).1.sources = [] ∧
    (ask defaultLLM st question k).1.num_chunks_used = 0 ∧
    (ask defaultLLM st question k).2 = [] := by
  simp only [ask, h]
  exact ⟨by decide, by trivial, by trivial, by trivial⟩

/-- C5 witness: a concrete uninitialized orchestrator. -/
theorem ask_uninitialized_witness :
    wStateNone.vectorstore = none ∧
    (containsSub ("not initialized".data) (ask wLLM wStateNone wQ 3).1.answer = true ∧
      (ask wLLM wStateNone wQ 3).1.sources = [] ∧
      (ask wLLM wStateNone wQ 3).1.num_chunks_used = 0 ∧
      (ask wLLM wStateNone wQ 3).2 = []) :=
  ⟨rfl, ask_uninitialized wLLM wStateNone wQ 3 rfl⟩

/-- C10: a retrieved chunk whose metadata lacks the source, author or topic
key gets the literal `Unknown` substituted for the missing field, both in its
citation record and (for source and author, the two fields shown) in the
labeled context block `ask` formats for the generator; two chunks missing
all fields produce identical all-`Unknown` records, which first-occurrence
deduplication collapses to a single citation. -/
theorem ask_unknown_fields (d e : Doc) (i : Nat) :
    (lookupD d.metadata sourceKey = none → (sourceInfoOf d).file = unknownStr) ∧
    (lookupD d.metadata authorKey = none → (sourceInfoOf d).author = unknownStr) ∧
    (lookupD d.metadata topicKey = none → (sourceInfoOf d).topic = unknownStr) ∧
    (lookupD d.metadata sourceKey = none → lookupD d.metadata authorKey = none →
      contextBlock i d = "[Source ".data ++ Nat.toDigits 10 i ++ ": ".data ++
        unknownStr ++ " by ".data ++ unknownStr ++ "]\n".data ++ d.page_content) ∧
    (lookupD d.metadata sourceKey = none → lookupD d.metadata authorKey = none →
      lookupD d.metadata topicKey = none → lookupD e.metadata sourceKey = none →
      lookupD e.metadata authorKey = none → lookupD e.metadata topicKey = none →
      specDedup [sourceInfoOf d, sourceInfoOf e] =
        [⟨unknownStr, unknownStr, unknownStr⟩]) := by
  refine ⟨?_, ?_, ?_, ?_, ?_⟩
  · intro hs; simp [sourceInfoOf, metaGetD, hs]
  · intro ha; simp [sourceInfoOf, metaGetD, ha]
  · intro ht; simp [sourceInfoOf, metaGetD, ht]
  · intro hs ha
    simp [contextBlock, metaGetD, hs, ha]
  · intro hs ha ht hs2 ha2 ht2
    have h1 : sourceInfoOf d = ⟨unknownStr, unknownStr, unknownStr⟩ := by
      simp [sourceInfoOf, metaGetD, hs, ha, ht]
    have h2 : sourceInfoOf e = ⟨unknownStr, unknownStr, unknownStr⟩ := by
      simp [sourceInfoOf, metaGetD, hs2, ha2, ht2]
    rw [h1, h2]
    decide

/-- C10 witness: two chunks with empty metadata. -/
theorem ask_unknown_fields_witness :
    (lookupD wDocU1.metadata sourceKey = none ∧
      lookupD wDocU1.metadata authorKey = none ∧
      lookupD wDocU1.metadata topicKey = none ∧
      lookupD wDocU2.metadata sourceKey = none ∧
      lookupD wDocU2.metadata authorKey = none ∧
      lookupD wDocU2.metadata topicKey = none) ∧
    (sourceInfoOf wDocU1).file = unknownStr ∧
    contextBlock 1 wDocU1 = "[Source ".data ++ Nat.toDigits 10 1 ++ ": ".data ++
      unknownStr ++ " by ".data ++ unknownStr ++ "]\n".data ++ wDocU1.page_content ∧
    specDedup [sourceInfoOf wDocU1, sourceInfoOf wDocU2] =
      [⟨unknownStr, unknownStr, unknownStr⟩] :=
  ⟨⟨rfl, rfl, rfl, rfl, rfl, rfl⟩,
    (ask_unknown_fields wDocU1 wDocU2 1).1 rfl,
    (ask_unknown_fields wDocU1 wDocU2 1).2.2.2.1 rfl rfl,
    (ask_unknown_fields wDocU1 wDocU2 1).2.2.2.2 rfl rfl rfl rfl rfl rfl⟩
